import Mathlib

/-!
Shallow embedding of the `hlc-gen` crate (hybrid logical clock generator).

The embedding follows the Rust sources:
  * `src/epoch.rs`     — custom-epoch conversion (`CustomEpochTimestamp`);
  * `src/error.rs`     — the `HlcError` enumeration;
  * `src/timestamp.rs` — the 64-bit HLC timestamp codec (`HlcTimestamp`) and
    the atomic state cell (`HlcAtomicTimestamp`).
Machine integers are modelled as `Nat` / `Int` with explicit reductions
modulo `2 ^ 64` (for `u64` wrapping) and explicit two's-complement wrapping
for `i64` where the source relies on casts.

The generator itself (`HlcGenerator` with `next_timestamp` / `update`) is not
among the available sources (only its integration tests are); it is modelled
from the specification's pseudocode, as marked on each such definition.
-/

namespace HlcGen

/-- Number of bits used for physical time (milliseconds since the custom
epoch); `PT_BITS` in `src/timestamp.rs`. -/
def PT_BITS : Nat := 42

/-- Maximum value of the physical-time field; `PT_MAX = (1 << PT_BITS) - 1`
in `src/timestamp.rs`. -/
def PT_MAX : Nat := (1 <<< PT_BITS) - 1

/-- Number of bits used for the logical clock counter; `LC_BITS` in
`src/timestamp.rs`. -/
def LC_BITS : Nat := 22

/-- Maximum value of the logical-counter field; `LC_MAX = (1 << LC_BITS) - 1`
in `src/timestamp.rs`. -/
def LC_MAX : Nat := (1 <<< LC_BITS) - 1

/-- The custom epoch, 2024-01-01 00:00:00 UTC in milliseconds since the Unix
epoch; `EPOCH` in `src/epoch.rs` (an `i64`, hence `Int`). -/
def EPOCH : Int := 1704067200000

/-- Modulus of `u64` arithmetic. -/
def U64_MOD : Nat := 2 ^ 64

/-- The error enumeration of `src/error.rs` (`HlcError`). -/
inductive HlcError where
  | OutOfRangeTimestamp : HlcError
  | DriftTooLarge : Nat → Nat → HlcError
  | PhysicalTimeExceedsMax : Int → Nat → HlcError
  | LogicalClockExceedsMax : Nat → Nat → HlcError
  | TimestampBelowMin : Int → Int → HlcError
deriving DecidableEq, Repr

/-- Interpretation of a `u64` bit pattern as an `i64` (Rust's `as i64`
cast): values below `2 ^ 63` map to themselves, larger ones wrap by
`2 ^ 64`. -/
def i64OfU64 (n : Nat) : Int :=
  if n < 2 ^ 63 then (n : Int) else (n : Int) - 2 ^ 64

/-- Two's-complement wrap of an integer into the `i64` range (release-mode
overflow semantics of `i64` addition). -/
def wrapI64 (x : Int) : Int :=
  (x + 2 ^ 63) % 2 ^ 64 - 2 ^ 63

/-- Timestamp in milliseconds since the custom epoch; `CustomEpochTimestamp`
in `src/epoch.rs` (a `u64` newtype). -/
structure CustomEpochTimestamp where
  millis : Nat
deriving DecidableEq, Repr

/-- Embeds `CustomEpochTimestamp::from_unix_timestamp`: fails with
`TimestampBelowMin` when the Unix instant precedes the custom epoch,
otherwise stores `unix_timestamp - EPOCH` as a `u64`. -/
def CustomEpochTimestamp.from_unix_timestamp (unix_timestamp : Int) :
    Except HlcError CustomEpochTimestamp :=
  if unix_timestamp < EPOCH then
    .error (.TimestampBelowMin unix_timestamp EPOCH)
  else
    .ok ⟨(unix_timestamp - EPOCH).toNat⟩

/-- Embeds `CustomEpochTimestamp::to_unix_timestamp`: `ms as i64 + EPOCH`
on a `u64` argument, with the cast and the signed addition modelled as
two's-complement operations. -/
def CustomEpochTimestamp.to_unix_timestamp (ms : Nat) : Int :=
  wrapI64 (i64OfU64 ms + EPOCH)

/-- The 64-bit HLC timestamp of `src/timestamp.rs` (`HlcTimestamp`, a `u64`
newtype): upper 42 bits physical offset, lower 22 bits logical counter. -/
structure HlcTimestamp where
  val : Nat
deriving DecidableEq, Repr

/-- Embeds `HlcTimestamp::from_parts`: validates the physical time against
`PT_MAX` and the logical counter against `LC_MAX`, converts the physical
time to a custom-epoch offset, and packs `(offset << LC_BITS) | lc`. -/
def HlcTimestamp.from_parts (pt : Int) (lc : Nat) : Except HlcError HlcTimestamp :=
  if (PT_MAX : Int) < pt then
    .error (.PhysicalTimeExceedsMax pt PT_MAX)
  else if LC_MAX < lc then
    .error (.LogicalClockExceedsMax lc LC_MAX)
  else
    match CustomEpochTimestamp.from_unix_timestamp pt with
    | .error e => .error e
    | .ok ts => .ok ⟨(ts.millis <<< LC_BITS) % U64_MOD ||| lc⟩

/-- Embeds `HlcTimestamp::new`: `from_parts(unix_timestamp, 0)`. -/
def HlcTimestamp.new (unix_timestamp : Int) : Except HlcError HlcTimestamp :=
  HlcTimestamp.from_parts unix_timestamp 0

/-- Embeds the `TryFrom<u64>` impl for `HlcTimestamp`: splits the raw value
into masked fields and revalidates through `from_parts`. -/
def HlcTimestamp.try_from (value : Nat) : Except HlcError HlcTimestamp :=
  let pt := (value >>> LC_BITS) &&& PT_MAX
  let lc := value &&& LC_MAX
  HlcTimestamp.from_parts (CustomEpochTimestamp.to_unix_timestamp pt) lc

/-- Embeds `HlcTimestamp::timestamp`: Unix milliseconds of the physical
field. -/
def HlcTimestamp.timestamp (t : HlcTimestamp) : Int :=
  CustomEpochTimestamp.to_unix_timestamp ((t.val >>> LC_BITS) &&& PT_MAX)

/-- Embeds `HlcTimestamp::count`: the logical clock counter. -/
def HlcTimestamp.count (t : HlcTimestamp) : Nat :=
  t.val &&& LC_MAX

/-- Embeds `HlcTimestamp::parts`: `(timestamp, count)`. -/
def HlcTimestamp.parts (t : HlcTimestamp) : Int × Nat :=
  (t.timestamp, t.count)

/-- Embeds `HlcTimestamp::as_u64`: the raw value. -/
def HlcTimestamp.as_u64 (t : HlcTimestamp) : Nat :=
  t.val

/-- Embeds the private `HlcTimestamp::split`: raw physical and logical
fields, masked. -/
def HlcTimestamp.split (t : HlcTimestamp) : Nat × Nat :=
  ((t.val >>> LC_BITS) &&& PT_MAX, t.val &&& LC_MAX)

/-- Embeds `Add<u64> for HlcTimestamp`: wrapping add on the raw physical
field, re-packed with the unchanged logical field; all `u64` operations
reduced modulo `2 ^ 64`. -/
def HlcTimestamp.add (t : HlcTimestamp) (ts : Nat) : HlcTimestamp :=
  let p := (t.split).1
  let l := (t.split).2
  ⟨(((p + ts) % U64_MOD) <<< LC_BITS) % U64_MOD ||| l⟩

/-- Embeds `Sub<u64> for HlcTimestamp`: wrapping subtract on the raw
physical field (`pt.wrapping_sub(ts)`), re-packed with the unchanged
logical field. -/
def HlcTimestamp.sub (t : HlcTimestamp) (ts : Nat) : HlcTimestamp :=
  let p := (t.split).1
  let l := (t.split).2
  ⟨(((p + (U64_MOD - ts % U64_MOD)) % U64_MOD) <<< LC_BITS) % U64_MOD ||| l⟩

/-- Embeds `Sub<HlcTimestamp> for HlcTimestamp`: signed difference of the
physical fields only. -/
def HlcTimestamp.diff (t u : HlcTimestamp) : Int :=
  (((t.val >>> LC_BITS) &&& PT_MAX : Nat) : Int) -
    (((u.val >>> LC_BITS) &&& PT_MAX : Nat) : Int)

/-- Embeds one interference-free pass of `HlcAtomicTimestamp::update` from
`src/timestamp.rs`: decode the current word, run the merge closure, validate
the produced pair against `PT_MAX` / `LC_MAX` / the epoch, and only then
replace the word with the re-encoded pair; any error leaves the word
untouched. Returns the post-call word together with the result. With no
concurrent writer the compare-and-swap succeeds on the first attempt, so the
loop body runs exactly once. -/
def HlcAtomicTimestamp.update (current : Nat)
    (new_values : Int → Nat → Except HlcError (Int × Nat)) :
    Nat × Except HlcError Nat :=
  match new_values
      (CustomEpochTimestamp.to_unix_timestamp ((current >>> LC_BITS) &&& PT_MAX))
      (current &&& LC_MAX) with
  | .error e => (current, .error e)
  | .ok (pt, lc) =>
    if (PT_MAX : Int) < pt then
      (current, .error (.PhysicalTimeExceedsMax pt PT_MAX))
    else if LC_MAX < lc then
      (current, .error (.LogicalClockExceedsMax lc LC_MAX))
    else
      match CustomEpochTimestamp.from_unix_timestamp pt with
      | .error e => (current, .error e)
      | .ok ts =>
        let new_combined := (ts.millis <<< LC_BITS) % U64_MOD ||| lc
        (new_combined, .ok new_combined)

/-- Modelled from the spec: the generator state of §4.4 — the atomic cell's
current word, a (manual) clock source reading in Unix milliseconds, and the
maximum tolerated drift (`0` disables the check). The generator sources are
not available; only the spec's pseudocode and the integration tests are. -/
structure HlcGenerator where
  register : Nat
  clock : Int
  max_drift : Nat
deriving DecidableEq, Repr

/-- Modelled from the spec: `next_timestamp()` (local tick) of §4.4 —
`new_p = max(local_p, physical_now)`, `new_l = local_l + 1` if the physical
component is pinned, else `0`; applied through the atomic state cell. -/
def HlcGenerator.next_timestamp (g : HlcGenerator) :
    HlcGenerator × Except HlcError HlcTimestamp :=
  let physical_now := g.clock
  let r := HlcAtomicTimestamp.update g.register (fun local_p local_l =>
    let new_p := max local_p physical_now
    let new_l := if new_p = local_p then local_l + 1 else 0
    .ok (new_p, new_l))
  ({ g with register := r.1 }, r.2.map (fun c => ⟨c⟩))

/-- Modelled from the spec: `update(remote)` (receive/merge) of §4.4 —
decode the remote timestamp, reject it with `DriftTooLarge` when its
physical component exceeds the freshly read wall clock by more than
`max_drift` (a non-zero bound), otherwise apply the three-way causal merge
through the atomic state cell. -/
def HlcGenerator.update (g : HlcGenerator) (remote : HlcTimestamp) :
    HlcGenerator × Except HlcError HlcTimestamp :=
  let physical_now := g.clock
  let remote_p :=
    CustomEpochTimestamp.to_unix_timestamp ((remote.val >>> LC_BITS) &&& PT_MAX)
  let remote_l := remote.val &&& LC_MAX
  if g.max_drift ≠ 0 ∧ (g.max_drift : Int) < remote_p - physical_now then
    (g, .error (.DriftTooLarge (remote_p - physical_now).toNat g.max_drift))
  else
    let r := HlcAtomicTimestamp.update g.register (fun local_p local_l =>
      let new_p := max (max local_p remote_p) physical_now
      let new_l :=
        if new_p = local_p ∧ new_p = remote_p then max local_l remote_l + 1
        else if new_p = local_p then local_l + 1
        else if new_p = remote_p then remote_l + 1
        else 0
      .ok (new_p, new_l))
    ({ g with register := r.1 }, r.2.map (fun c => ⟨c⟩))

/-- Modelled from the spec: one linearized call on a shared generator — a
local tick (`next_timestamp`) or a remote merge (`update`), each tagged with
the wall-clock reading the clock source supplies at that call. The spec's
state machine (§4.4) makes every call one atomic transition of the single
register, so an arbitrary thread interleaving is a sequence of such calls. -/
inductive HlcCall where
  | tick : Int → HlcCall
  | recv : Int → HlcTimestamp → HlcCall
deriving Repr

/-- Modelled from the spec: execute one linearized call against the
register, returning the new register and the call's result. -/
def HlcCall.run (max_drift : Nat) (register : Nat) :
    HlcCall → Nat × Except HlcError HlcTimestamp
  | .tick now =>
    let r := HlcGenerator.next_timestamp ⟨register, now, max_drift⟩
    (r.1.register, r.2)
  | .recv now remote =>
    let r := HlcGenerator.update ⟨register, now, max_drift⟩ remote
    (r.1.register, r.2)

/-- Modelled from the spec: run a sequence of linearized calls against one
shared generator register, collecting the raw values of the successfully
returned timestamps in call order. -/
def runCalls (max_drift : Nat) : Nat → List HlcCall → List Nat
  | _, [] => []
  | register, c :: rest =>
    match HlcCall.run max_drift register c with
    | (register', .ok t) => t.val :: runCalls max_drift register' rest
    | (register', .error _) => runCalls max_drift register' rest

/-! ## Bridge lemmas between the bit-level and arithmetic views -/

theorem PT_MAX_eq : PT_MAX = 2 ^ 42 - 1 := by
  norm_num [PT_MAX, PT_BITS, Nat.shiftLeft_eq]

theorem LC_MAX_eq : LC_MAX = 2 ^ 22 - 1 := by
  norm_num [LC_MAX, LC_BITS, Nat.shiftLeft_eq]

theorem and_PT_MAX (x : Nat) : x &&& PT_MAX = x % 2 ^ 42 := by
  rw [PT_MAX_eq, Nat.and_pow_two_sub_one_eq_mod]

theorem and_LC_MAX (x : Nat) : x &&& LC_MAX = x % 2 ^ 22 := by
  rw [LC_MAX_eq, Nat.and_pow_two_sub_one_eq_mod]

theorem shiftRight_LC_BITS (x : Nat) : x >>> LC_BITS = x / 2 ^ 22 := by
  rw [LC_BITS, Nat.shiftRight_eq_div_pow]

/-- Packing a 42-bit offset and a 22-bit counter is plain arithmetic:
`(a <<< 22) % 2 ^ 64 ||| b = a * 2 ^ 22 + b`. -/
theorem pack_eq (a b : Nat) (ha : a < 2 ^ 42) (hb : b < 2 ^ 22) :
    (a <<< LC_BITS) % U64_MOD ||| b = a * 2 ^ 22 + b := by
  have hlt : a * 2 ^ 22 < 2 ^ 64 := by
    have h1 : a * 2 ^ 22 < 2 ^ 42 * 2 ^ 22 := by
      exact Nat.mul_lt_mul_of_lt_of_le ha (le_refl _) (by norm_num)
    have h2 : (2 ^ 42 : Nat) * 2 ^ 22 = 2 ^ 64 := by norm_num
    omega
  rw [LC_BITS, Nat.shiftLeft_eq, U64_MOD, Nat.mod_eq_of_lt hlt,
    mul_comm a (2 ^ 22), ← Nat.mul_add_lt_is_or hb, mul_comm]

/-- Unpacking the physical field of a packed word. -/
theorem unpack_hi (a b : Nat) (ha : a < 2 ^ 42) (hb : b < 2 ^ 22) :
    ((a * 2 ^ 22 + b) >>> LC_BITS) &&& PT_MAX = a := by
  rw [shiftRight_LC_BITS, and_PT_MAX]
  rw [Nat.add_comm, Nat.add_mul_div_right _ _ (by norm_num : (0:Nat) < 2 ^ 22),
    Nat.div_eq_of_lt hb, Nat.zero_add, Nat.mod_eq_of_lt ha]

/-- Unpacking the logical field of a packed word. -/
theorem unpack_lo (a b : Nat) (hb : b < 2 ^ 22) :
    (a * 2 ^ 22 + b) &&& LC_MAX = b := by
  rw [and_LC_MAX, Nat.add_comm, Nat.add_mul_mod_self_right, Nat.mod_eq_of_lt hb]

theorem i64OfU64_of_lt {n : Nat} (h : n < 2 ^ 63) : i64OfU64 n = n := by
  rw [i64OfU64, if_pos h]

theorem wrapI64_of_bounds {x : Int} (h0 : -2 ^ 63 ≤ x) (h1 : x < 2 ^ 63) :
    wrapI64 x = x := by
  rw [wrapI64, Int.emod_eq_of_lt (by omega) (by omega)]
  omega

/-- On in-range offsets the conversion back to Unix time is plain addition. -/
theorem to_unix_eq_add {ms : Nat} (h : (ms : Int) + EPOCH < 2 ^ 63) :
    CustomEpochTimestamp.to_unix_timestamp ms = (ms : Int) + EPOCH := by
  have hms : ms < 2 ^ 63 := by
    have : (ms : Int) < 2 ^ 63 := by
      have : (0 : Int) < EPOCH := by norm_num [EPOCH]
      omega
    exact_mod_cast this
  rw [CustomEpochTimestamp.to_unix_timestamp, i64OfU64_of_lt hms]
  refine wrapI64_of_bounds ?_ h
  have : (0 : Int) ≤ (ms : Int) := Int.ofNat_nonneg ms
  norm_num [EPOCH]
  omega

/-- Decoding the physical field of a `u64` word and converting to Unix time
yields `word / 2 ^ 22 + EPOCH` whenever the word fits in 64 bits. -/
theorem decode_hi_eq (s : Nat) (hs : s < 2 ^ 64) :
    CustomEpochTimestamp.to_unix_timestamp ((s >>> LC_BITS) &&& PT_MAX) =
      ((s / 2 ^ 22 : Nat) : Int) + EPOCH := by
  have hdiv : s / 2 ^ 22 < 2 ^ 42 := by
    apply Nat.div_lt_of_lt_mul
    calc s < 2 ^ 64 := hs
    _ = 2 ^ 22 * 2 ^ 42 := by norm_num
  rw [shiftRight_LC_BITS, and_PT_MAX, Nat.mod_eq_of_lt hdiv]
  apply to_unix_eq_add
  have : ((s / 2 ^ 22 : Nat) : Int) < 2 ^ 42 := by exact_mod_cast hdiv
  norm_num [EPOCH]
  omega

/-! ## C1 / C2: the encode validation bounds the Unix value, not the offset -/

/-- C1: contrary to the round-trip claim, the pair `(EPOCH + PT_MAX, 0)` has an offset of
exactly `2 ^ 42 - 1` from the custom epoch — in-width for the 42-bit field —
yet `from_parts` rejects it with the physical-overflow error, because the
code compares the Unix-millisecond value itself (not the offset) against
`PT_MAX`; the boundary input it does accept is `p = PT_MAX` viewed as a Unix
instant. -/
theorem from_parts_rejects_max_offset :
    (EPOCH + (PT_MAX : Int)) - EPOCH ≤ (PT_MAX : Int) ∧
    EPOCH ≤ EPOCH + (PT_MAX : Int) ∧
    HlcTimestamp.from_parts (EPOCH + (PT_MAX : Int)) 0 =
      .error (.PhysicalTimeExceedsMax (EPOCH + (PT_MAX : Int)) PT_MAX) ∧
    (∃ t, HlcTimestamp.from_parts (PT_MAX : Int) 0 = .ok t) := by
  refine ⟨by omega, by norm_num [EPOCH], rfl, ⟨_, rfl⟩⟩

/-- C2: contrary to the overflow-iff claim, the Unix instant `2 ^ 42` lies well inside the
claimed 139-year window (its offset from the 2024 epoch is below
`2 ^ 42 - 1`) and is at or after the epoch, yet `from_parts` returns the
physical-overflow error: the code's check `pt > PT_MAX` is applied to the
Unix value instead of to the offset stored in the 42-bit field. -/
theorem from_parts_bounds_unix_value_not_offset :
    (2 ^ 42 : Int) - EPOCH ≤ (PT_MAX : Int) ∧
    EPOCH ≤ (2 ^ 42 : Int) ∧
    HlcTimestamp.from_parts (2 ^ 42) 0 =
      .error (.PhysicalTimeExceedsMax (2 ^ 42) PT_MAX) := by
  refine ⟨by norm_num [EPOCH, PT_MAX_eq], by norm_num [EPOCH], rfl⟩

/-! ## C4 / C5: concrete generator behaviors (receive merge and drift bound) -/

/-- C4: with the register at (offset 10, logical 7), a remote timestamp at
(offset 10, logical 4), and the clock source reading offset 6, `update`
succeeds and both returns and stores (offset 10, logical 8) — the HLC
receive merge with all three physical components tied on `max` takes
`max(local_l, remote_l) + 1`. The raw words are related to their
`(unix_ms, logical)` pairs through `from_parts`. -/
theorem update_concrete_causal_merge :
    HlcTimestamp.from_parts (EPOCH + 10) 7 = .ok ⟨10 * 2 ^ 22 + 7⟩ ∧
    HlcTimestamp.from_parts (EPOCH + 10) 4 = .ok ⟨10 * 2 ^ 22 + 4⟩ ∧
    HlcTimestamp.from_parts (EPOCH + 10) 8 = .ok ⟨10 * 2 ^ 22 + 8⟩ ∧
    HlcGenerator.update ⟨10 * 2 ^ 22 + 7, EPOCH + 6, 1000⟩ ⟨10 * 2 ^ 22 + 4⟩ =
      (⟨10 * 2 ^ 22 + 8, EPOCH + 6, 1000⟩, .ok ⟨10 * 2 ^ 22 + 8⟩) :=
  ⟨rfl, rfl, rfl, rfl⟩

/-- C5: with `max_drift = 1000` and the clock at offset 12345, a remote at
offset 13345 (drift exactly 1000) is accepted; a remote at offset 13346 is
rejected with `DriftTooLarge(1001, 1000)` leaving any register value
untouched; and with `max_drift = 0` the drift check is disabled, so the
offset-13346 remote is accepted. -/
theorem update_drift_bound :
    (HlcGenerator.update ⟨12345 * 2 ^ 22, EPOCH + 12345, 1000⟩ ⟨13345 * 2 ^ 22 + 2⟩ =
      (⟨13345 * 2 ^ 22 + 3, EPOCH + 12345, 1000⟩, .ok ⟨13345 * 2 ^ 22 + 3⟩)) ∧
    (∀ s : Nat, HlcGenerator.update ⟨s, EPOCH + 12345, 1000⟩ ⟨13346 * 2 ^ 22 + 5⟩ =
      (⟨s, EPOCH + 12345, 1000⟩, .error (.DriftTooLarge 1001 1000))) ∧
    (HlcGenerator.update ⟨12345 * 2 ^ 22, EPOCH + 12345, 0⟩ ⟨13346 * 2 ^ 22 + 5⟩ =
      (⟨13346 * 2 ^ 22 + 6, EPOCH + 12345, 0⟩, .ok ⟨13346 * 2 ^ 22 + 6⟩)) := by
  refine ⟨rfl, ?_, rfl⟩
  intro s
  have hc : CustomEpochTimestamp.to_unix_timestamp
      ((13346 * 2 ^ 22 + 5 : Nat) >>> LC_BITS &&& PT_MAX) = EPOCH + 13346 := by decide
  simp only [HlcGenerator.update, hc]
  norm_num [EPOCH]
  decide

/-! ## C9: epoch conversion -/

/-- C9: `to_unix_timestamp` does not return
`offset + EPOCH` for every `u64` offset — at `2 ^ 63` the `u64 → i64` cast
wraps, so the result is `EPOCH - 2 ^ 63` instead of `2 ^ 63 + EPOCH`. -/
theorem to_unix_large_offset_counterexample :
    CustomEpochTimestamp.to_unix_timestamp (2 ^ 63) = EPOCH - 2 ^ 63 ∧
    CustomEpochTimestamp.to_unix_timestamp (2 ^ 63) ≠ (2 ^ 63 : Int) + EPOCH := by
  constructor <;> decide

/-- C9: in amended form, `from_unix_timestamp` fails with the below-minimum error
exactly when the Unix instant precedes the 2024-01-01 epoch, and otherwise
returns the offset `unix - EPOCH`; `to_unix_timestamp` is total and returns
`offset + EPOCH` for every offset whose image stays inside the `i64` range
(in particular for every offset obtained from `from_unix_timestamp`) —
beyond that the `u64 → i64` cast wraps. -/
theorem epoch_conversion (unix : Int) (ms : Nat) :
    (CustomEpochTimestamp.from_unix_timestamp unix =
        .error (.TimestampBelowMin unix EPOCH) ↔ unix < EPOCH) ∧
    (EPOCH ≤ unix →
      CustomEpochTimestamp.from_unix_timestamp unix = .ok ⟨(unix - EPOCH).toNat⟩) ∧
    ((ms : Int) + EPOCH < 2 ^ 63 →
      CustomEpochTimestamp.to_unix_timestamp ms = (ms : Int) + EPOCH) := by
  refine ⟨?_, ?_, fun h => to_unix_eq_add h⟩
  · constructor
    · intro h
      by_contra hge
      rw [CustomEpochTimestamp.from_unix_timestamp, if_neg hge] at h
      exact Except.noConfusion h
    · intro h
      rw [CustomEpochTimestamp.from_unix_timestamp, if_pos h]
  · intro h
    rw [CustomEpochTimestamp.from_unix_timestamp, if_neg (by omega)]

/-- C9 witness: the amended conversion facts evaluated at the concrete
instant `EPOCH + 123` and offset `123`. -/
theorem epoch_conversion_witness :
    CustomEpochTimestamp.from_unix_timestamp (EPOCH + 123) = .ok ⟨123⟩ ∧
    CustomEpochTimestamp.to_unix_timestamp 123 = (123 : Int) + EPOCH := by
  constructor
  · have h := (epoch_conversion (EPOCH + 123) 123).2.1 (by norm_num)
    simpa using h
  · exact (epoch_conversion (EPOCH + 123) 123).2.2 (by norm_num [EPOCH])

/-! ## C3: atomicity of the atomic state cell -/

theorem update_merge_error (s : Nat)
    (f : Int → Nat → Except HlcError (Int × Nat)) (e : HlcError)
    (h : f (CustomEpochTimestamp.to_unix_timestamp ((s >>> LC_BITS) &&& PT_MAX))
        (s &&& LC_MAX) = .error e) :
    HlcAtomicTimestamp.update s f = (s, .error e) := by
  rw [HlcAtomicTimestamp.update, h]

theorem update_ok_valid (s : Nat)
    (f : Int → Nat → Except HlcError (Int × Nat)) (pt : Int) (lc : Nat)
    (h : f (CustomEpochTimestamp.to_unix_timestamp ((s >>> LC_BITS) &&& PT_MAX))
        (s &&& LC_MAX) = .ok (pt, lc))
    (h1 : pt ≤ (PT_MAX : Int)) (h2 : lc ≤ LC_MAX) (h3 : EPOCH ≤ pt) :
    HlcAtomicTimestamp.update s f =
      (((pt - EPOCH).toNat <<< LC_BITS) % U64_MOD ||| lc,
        .ok (((pt - EPOCH).toNat <<< LC_BITS) % U64_MOD ||| lc)) := by
  rw [HlcAtomicTimestamp.update, h]
  dsimp only
  rw [if_neg (not_lt.mpr h1), if_neg (not_lt.mpr h2),
    CustomEpochTimestamp.from_unix_timestamp, if_neg (not_lt.mpr h3)]

theorem update_ok_invalid (s : Nat)
    (f : Int → Nat → Except HlcError (Int × Nat)) (pt : Int) (lc : Nat)
    (h : f (CustomEpochTimestamp.to_unix_timestamp ((s >>> LC_BITS) &&& PT_MAX))
        (s &&& LC_MAX) = .ok (pt, lc))
    (hbad : ¬(pt ≤ (PT_MAX : Int) ∧ lc ≤ LC_MAX ∧ EPOCH ≤ pt)) :
    (HlcAtomicTimestamp.update s f).1 = s ∧
      ∃ e, (HlcAtomicTimestamp.update s f).2 = .error e := by
  rw [HlcAtomicTimestamp.update, h]
  dsimp only
  by_cases c1 : (PT_MAX : Int) < pt
  · rw [if_pos c1]
    exact ⟨rfl, _, rfl⟩
  · rw [if_neg c1]
    by_cases c2 : LC_MAX < lc
    · rw [if_pos c2]
      exact ⟨rfl, _, rfl⟩
    · rw [if_neg c2]
      have c3 : pt < EPOCH := by
        by_contra c3
        exact hbad ⟨not_lt.mp c1, not_lt.mp c2, not_lt.mp c3⟩
      rw [CustomEpochTimestamp.from_unix_timestamp, if_pos c3]
      exact ⟨rfl, _, rfl⟩

theorem update_error_unchanged (s : Nat)
    (f : Int → Nat → Except HlcError (Int × Nat)) (e : HlcError)
    (h : (HlcAtomicTimestamp.update s f).2 = .error e) :
    (HlcAtomicTimestamp.update s f).1 = s := by
  cases hf : f (CustomEpochTimestamp.to_unix_timestamp ((s >>> LC_BITS) &&& PT_MAX))
      (s &&& LC_MAX) with
  | error e' => rw [update_merge_error s f e' hf]
  | ok pr =>
    obtain ⟨pt, lc⟩ := pr
    by_cases hv : pt ≤ (PT_MAX : Int) ∧ lc ≤ LC_MAX ∧ EPOCH ≤ pt
    · rw [update_ok_valid s f pt lc hf hv.1 hv.2.1 hv.2.2] at h
      exact Except.noConfusion h
    · exact (update_ok_invalid s f pt lc hf hv).1

/-- C3: every pass of `HlcAtomicTimestamp::update` either returns an error
and leaves the cell's word identical to its pre-call value — which is the
outcome whenever the merge closure returns an error or the pair it returns
fails the `PT_MAX` / `LC_MAX` / epoch validation, all performed before the
word is replaced — or replaces the word exactly once with the encoding of
the pair the closure computed from the decoded snapshot `(timestamp, count)`
of that word. -/
theorem atomic_update_atomicity (s : Nat)
    (f : Int → Nat → Except HlcError (Int × Nat)) :
    (∀ e, f (HlcTimestamp.timestamp ⟨s⟩) (HlcTimestamp.count ⟨s⟩) = .error e →
      HlcAtomicTimestamp.update s f = (s, .error e)) ∧
    (∀ e, (HlcAtomicTimestamp.update s f).2 = .error e →
      (HlcAtomicTimestamp.update s f).1 = s) ∧
    (∀ pt lc, f (HlcTimestamp.timestamp ⟨s⟩) (HlcTimestamp.count ⟨s⟩) = .ok (pt, lc) →
      ((pt ≤ (PT_MAX : Int) ∧ lc ≤ LC_MAX ∧ EPOCH ≤ pt) →
        HlcAtomicTimestamp.update s f =
          (((pt - EPOCH).toNat <<< LC_BITS) % U64_MOD ||| lc,
            .ok (((pt - EPOCH).toNat <<< LC_BITS) % U64_MOD ||| lc))) ∧
      (¬(pt ≤ (PT_MAX : Int) ∧ lc ≤ LC_MAX ∧ EPOCH ≤ pt) →
        (HlcAtomicTimestamp.update s f).1 = s ∧
          ∃ e, (HlcAtomicTimestamp.update s f).2 = .error e)) := by
  refine ⟨fun e he => update_merge_error s f e he,
    fun e he => update_error_unchanged s f e he,
    fun pt lc h => ⟨fun hv => update_ok_valid s f pt lc h hv.1 hv.2.1 hv.2.2,
      fun hbad => update_ok_invalid s f pt lc h hbad⟩⟩

/-- C3 witness: the atomicity contract applied to the zero word and a merge
closure that always errors — the call returns that error and the word is
unchanged. -/
theorem atomic_update_atomicity_witness :
    HlcAtomicTimestamp.update 0 (fun _ _ => .error .OutOfRangeTimestamp) =
      (0, .error .OutOfRangeTimestamp) :=
  (atomic_update_atomicity 0 (fun _ _ => .error .OutOfRangeTimestamp)).1
    .OutOfRangeTimestamp rfl

/-! ## C7: millisecond arithmetic touches only the physical field -/

/-- Packing a wrapped `u64` into the physical field is arithmetic modulo the
42-bit field width. -/
theorem wrap_pack (x l : Nat) (hl : l < 2 ^ 22) :
    ((x % U64_MOD) <<< LC_BITS) % U64_MOD ||| l = (x % 2 ^ 42) * 2 ^ 22 + l := by
  rw [LC_BITS, Nat.shiftLeft_eq, U64_MOD]
  have hsplit : (2 ^ 64 : Nat) = 2 ^ 42 * 2 ^ 22 := by norm_num
  have h1 : (x % 2 ^ 64) * 2 ^ 22 % 2 ^ 64 = x % 2 ^ 42 * 2 ^ 22 := by
    rw [hsplit, Nat.mul_mod_mul_right,
      Nat.mod_mod_of_dvd x (dvd_mul_right (2 ^ 42) (2 ^ 22))]
  rw [h1, mul_comm _ (2 ^ 22), ← Nat.mul_add_lt_is_or hl, mul_comm]

/-- C7: adding or subtracting `n` milliseconds changes only the physical
field, modulo the 42-bit field width, wrapping silently in either direction,
while the 22-bit logical counter is returned untouched: the physical field
of `t + n` is `(physical(t) + n) mod 2 ^ 42`, that of `t - n` is
`(physical(t) - n) mod 2 ^ 42` (integer modulus), and `count` is unchanged
by both. -/
theorem arithmetic_touches_only_physical (t : HlcTimestamp) (n : Nat) :
    ((t.add n).split).1 = ((t.split).1 + n) % 2 ^ 42 ∧
    (t.add n).count = t.count ∧
    ((((t.sub n).split).1 : Int) = (((t.split).1 : Int) - (n : Int)) % 2 ^ 42) ∧
    (t.sub n).count = t.count := by
  have hl : t.val &&& LC_MAX < 2 ^ 22 := by
    rw [and_LC_MAX]; exact Nat.mod_lt _ (by norm_num)
  have hp : (t.split).1 = (t.val >>> LC_BITS) &&& PT_MAX := rfl
  have hq : (t.split).2 = t.val &&& LC_MAX := rfl
  have hadd : (t.add n).val =
      ((((t.val >>> LC_BITS) &&& PT_MAX) + n) % 2 ^ 42) * 2 ^ 22 + (t.val &&& LC_MAX) := by
    show ((((t.split).1 + n) % U64_MOD) <<< LC_BITS) % U64_MOD ||| (t.split).2 = _
    rw [hp, hq, wrap_pack _ _ hl]
  have hsub : (t.sub n).val =
      ((((t.val >>> LC_BITS) &&& PT_MAX) + (U64_MOD - n % U64_MOD)) % 2 ^ 42) * 2 ^ 22 +
        (t.val &&& LC_MAX) := by
    show ((((t.split).1 + (U64_MOD - n % U64_MOD)) % U64_MOD) <<< LC_BITS) % U64_MOD |||
        (t.split).2 = _
    rw [hp, hq, wrap_pack _ _ hl]
  have hmodlt : ∀ y : Nat, y % 2 ^ 42 < 2 ^ 42 := fun y => Nat.mod_lt _ (by norm_num)
  refine ⟨?_, ?_, ?_, ?_⟩
  · show ((t.add n).val >>> LC_BITS) &&& PT_MAX = _
    rw [hadd, unpack_hi _ _ (hmodlt _) hl, hp]
  · show (t.add n).val &&& LC_MAX = t.val &&& LC_MAX
    rw [hadd, unpack_lo _ _ hl]
  · show ((((t.sub n).val >>> LC_BITS) &&& PT_MAX : Nat) : Int) = _
    rw [hsub, unpack_hi _ _ (hmodlt _) hl, hp]
    simp only [U64_MOD]
    omega
  · show (t.sub n).val &&& LC_MAX = t.val &&& LC_MAX
    rw [hsub, unpack_lo _ _ hl]

/-! ## C8: raw round-trip for validly constructed timestamps -/

/-- C8: any timestamp produced by a successful `from_parts` (hence also by
`new`) survives the raw round-trip: converting it to its raw `u64` with
`as_u64` and revalidating with `TryFrom<u64>` returns the identical
timestamp. -/
theorem raw_roundtrip (p : Int) (l : Nat) (t : HlcTimestamp)
    (h : HlcTimestamp.from_parts p l = .ok t) :
    HlcTimestamp.try_from t.as_u64 = .ok t := by
  rw [HlcTimestamp.from_parts] at h
  by_cases c1 : (PT_MAX : Int) < p
  · rw [if_pos c1] at h; cases h
  rw [if_neg c1] at h
  by_cases c2 : LC_MAX < l
  · rw [if_pos c2] at h; cases h
  rw [if_neg c2, CustomEpochTimestamp.from_unix_timestamp] at h
  by_cases c3 : p < EPOCH
  · rw [if_pos c3] at h; cases h
  rw [if_neg c3] at h
  dsimp only at h
  injection h with h'
  subst h'
  have hl : l < 2 ^ 22 := by
    rw [LC_MAX_eq] at c2; omega
  have ha : (p - EPOCH).toNat < 2 ^ 42 := by
    rw [PT_MAX_eq] at c1
    simp only [EPOCH] at c1 c3 ⊢
    push_cast at c1
    omega
  have hpack : ((p - EPOCH).toNat <<< LC_BITS) % U64_MOD ||| l =
      (p - EPOCH).toNat * 2 ^ 22 + l := pack_eq _ _ ha hl
  have hu : CustomEpochTimestamp.to_unix_timestamp (p - EPOCH).toNat = p := by
    rw [to_unix_eq_add]
    · simp only [EPOCH] at c3 ⊢; omega
    · have : (((p - EPOCH).toNat : Nat) : Int) < 2 ^ 42 := by exact_mod_cast ha
      simp only [EPOCH] at this ⊢; omega
  show HlcTimestamp.try_from (((p - EPOCH).toNat <<< LC_BITS) % U64_MOD ||| l) = _
  simp only [HlcTimestamp.try_from, hpack, unpack_hi _ _ ha hl, unpack_lo _ _ hl, hu]
  rw [HlcTimestamp.from_parts, if_neg c1, if_neg c2,
    CustomEpochTimestamp.from_unix_timestamp, if_neg c3]
  dsimp only
  rw [hpack]

/-- C8 witness: the round-trip applied to the concrete timestamp built from
`(EPOCH + 12345, 67890)`, whose raw word is `12345 * 2 ^ 22 + 67890`. -/
theorem raw_roundtrip_witness :
    HlcTimestamp.from_parts (EPOCH + 12345) 67890 = .ok ⟨51778750770⟩ ∧
    HlcTimestamp.try_from (HlcTimestamp.as_u64 ⟨51778750770⟩) = .ok ⟨51778750770⟩ :=
  ⟨rfl, raw_roundtrip (EPOCH + 12345) 67890 ⟨51778750770⟩ (by rfl)⟩

/-! ## C10: `TryFrom<u64>` is not total -/

/-- C10: decoding a raw `u64` succeeds exactly when the upper 42-bit
physical field `f` satisfies `f + EPOCH ≤ PT_MAX`, and for every other raw
value it returns the physical-overflow error carrying `f + EPOCH` — so some
in-width bit patterns (e.g. all physical bits set) are rejected. -/
theorem try_from_success_iff (v : Nat) :
    ((∃ t, HlcTimestamp.try_from v = .ok t) ↔
      ((((v >>> LC_BITS) &&& PT_MAX : Nat) : Int) + EPOCH ≤ (PT_MAX : Int))) ∧
    ((PT_MAX : Int) < (((v >>> LC_BITS) &&& PT_MAX : Nat) : Int) + EPOCH →
      HlcTimestamp.try_from v =
        .error (.PhysicalTimeExceedsMax
          ((((v >>> LC_BITS) &&& PT_MAX : Nat) : Int) + EPOCH) PT_MAX)) := by
  have hf : (v >>> LC_BITS) &&& PT_MAX < 2 ^ 42 := by
    rw [and_PT_MAX]; exact Nat.mod_lt _ (by norm_num)
  have hu : CustomEpochTimestamp.to_unix_timestamp ((v >>> LC_BITS) &&& PT_MAX) =
      (((v >>> LC_BITS) &&& PT_MAX : Nat) : Int) + EPOCH := by
    apply to_unix_eq_add
    have : ((((v >>> LC_BITS) &&& PT_MAX : Nat)) : Int) < 2 ^ 42 := by exact_mod_cast hf
    simp only [EPOCH] at this ⊢; omega
  have hlc : ¬ LC_MAX < v &&& LC_MAX := by
    rw [and_LC_MAX, LC_MAX_eq]
    have := Nat.mod_lt v (show 0 < 2 ^ 22 by norm_num)
    omega
  by_cases hle : (((v >>> LC_BITS) &&& PT_MAX : Nat) : Int) + EPOCH ≤ (PT_MAX : Int)
  · have hok : HlcTimestamp.try_from v =
        .ok ⟨((((((v >>> LC_BITS) &&& PT_MAX : Nat) : Int) + EPOCH - EPOCH).toNat <<<
          LC_BITS) % U64_MOD ||| (v &&& LC_MAX))⟩ := by
      simp only [HlcTimestamp.try_from, hu]
      rw [HlcTimestamp.from_parts, if_neg (not_lt.mpr hle), if_neg hlc,
        CustomEpochTimestamp.from_unix_timestamp,
        if_neg (by simp only [EPOCH]; omega)]
    exact ⟨⟨fun _ => hle, fun _ => ⟨_, hok⟩⟩, fun hgt => absurd hle (not_le.mpr hgt)⟩
  · have herr : HlcTimestamp.try_from v =
        .error (.PhysicalTimeExceedsMax
          ((((v >>> LC_BITS) &&& PT_MAX : Nat) : Int) + EPOCH) PT_MAX) := by
      simp only [HlcTimestamp.try_from, hu]
      rw [HlcTimestamp.from_parts, if_pos (not_le.mp hle)]
    refine ⟨⟨?_, fun hle' => absurd hle' hle⟩, fun _ => herr⟩
    rintro ⟨t, ht⟩
    rw [herr] at ht
    cases ht

/-- C10 witness: the all-ones raw word (every physical bit set) is rejected
with the physical-overflow error. -/
theorem try_from_success_iff_witness :
    HlcTimestamp.try_from (2 ^ 64 - 1) =
      .error (.PhysicalTimeExceedsMax
        (((((2 ^ 64 - 1 : Nat) >>> LC_BITS) &&& PT_MAX : Nat) : Int) + EPOCH) PT_MAX) :=
  (try_from_success_iff (2 ^ 64 - 1)).2 (by decide)

/-! ## C6: global monotonicity of the generator -/

/-- Core progress property of the atomic cell: if the merge closure never
moves the physical component backwards and strictly bumps the logical
counter whenever the physical component is pinned, then an update pass
either fails leaving the word unchanged, or succeeds with a strictly larger
in-range word. -/
theorem update_progress (s : Nat)
    (f : Int → Nat → Except HlcError (Int × Nat)) (hs : s < 2 ^ 64)
    (hf : ∀ pt lc,
      f (CustomEpochTimestamp.to_unix_timestamp ((s >>> LC_BITS) &&& PT_MAX))
        (s &&& LC_MAX) = .ok (pt, lc) →
      CustomEpochTimestamp.to_unix_timestamp ((s >>> LC_BITS) &&& PT_MAX) ≤ pt ∧
      (pt = CustomEpochTimestamp.to_unix_timestamp ((s >>> LC_BITS) &&& PT_MAX) →
        s &&& LC_MAX < lc)) :
    ((HlcAtomicTimestamp.update s f).1 = s ∧
      ∃ e, (HlcAtomicTimestamp.update s f).2 = .error e) ∨
    ((HlcAtomicTimestamp.update s f).2 = .ok (HlcAtomicTimestamp.update s f).1 ∧
      s < (HlcAtomicTimestamp.update s f).1 ∧
      (HlcAtomicTimestamp.update s f).1 < 2 ^ 64) := by
  cases hr : f (CustomEpochTimestamp.to_unix_timestamp ((s >>> LC_BITS) &&& PT_MAX))
      (s &&& LC_MAX) with
  | error e =>
    left
    rw [update_merge_error s f e hr]
    exact ⟨rfl, e, rfl⟩
  | ok pr =>
    obtain ⟨pt, lc⟩ := pr
    by_cases hv : pt ≤ (PT_MAX : Int) ∧ lc ≤ LC_MAX ∧ EPOCH ≤ pt
    · right
      obtain ⟨h1, h2, h3⟩ := hv
      rw [update_ok_valid s f pt lc hr h1 h2 h3]
      have hm : (pt - EPOCH).toNat < 2 ^ 42 := by
        rw [PT_MAX_eq] at h1
        simp only [EPOCH] at h1 h3 ⊢
        push_cast at h1
        omega
      have hlc : lc < 2 ^ 22 := by rw [LC_MAX_eq] at h2; omega
      have hpack : ((pt - EPOCH).toNat <<< LC_BITS) % U64_MOD ||| lc =
          (pt - EPOCH).toNat * 2 ^ 22 + lc := pack_eq _ _ hm hlc
      obtain ⟨hge, hpin⟩ := hf pt lc hr
      rw [decode_hi_eq s hs] at hge hpin
      rw [and_LC_MAX] at hpin
      have hb : s % 2 ^ 22 = s &&& LC_MAX := (and_LC_MAX s).symm
      have hsplit : s = (s / 2 ^ 22) * 2 ^ 22 + s % 2 ^ 22 := by
        have := Nat.div_add_mod s (2 ^ 22)
        omega
      have hmod : s % 2 ^ 22 < 2 ^ 22 := Nat.mod_lt _ (by norm_num)
      have h3' : (1704067200000 : Int) ≤ pt := by simpa only [EPOCH] using h3
      have hm' : ((pt - EPOCH).toNat : Int) = pt - 1704067200000 := by
        simp only [EPOCH]
        omega
      have hge' : ((s / 2 ^ 22 : Nat) : Int) + 1704067200000 ≤ pt := by
        simpa only [EPOCH] using hge
      have hkey : s < (pt - EPOCH).toNat * 2 ^ 22 + lc ∧
          (pt - EPOCH).toNat * 2 ^ 22 + lc < 2 ^ 64 := by
        by_cases hcase : pt = ((s / 2 ^ 22 : Nat) : Int) + EPOCH
        · have hlt := hpin hcase
          have hcase' : pt = ((s / 2 ^ 22 : Nat) : Int) + 1704067200000 := by
            simpa only [EPOCH] using hcase
          constructor <;> omega
        · have hcase' : pt ≠ ((s / 2 ^ 22 : Nat) : Int) + 1704067200000 := by
            simpa only [EPOCH] using hcase
          constructor <;> omega
      refine ⟨rfl, ?_, ?_⟩ <;> rw [hpack] <;> omega
    · left
      obtain ⟨hu1, hu2⟩ := update_ok_invalid s f pt lc hr hv
      exact ⟨hu1, hu2⟩

/-- Every linearized generator call on an in-range register either fails
leaving the register unchanged, or returns exactly the strictly larger
in-range word it installed. -/
theorem run_step (d s : Nat) (c : HlcCall) (hs : s < 2 ^ 64) :
    (∃ e, HlcCall.run d s c = (s, .error e)) ∨
    (∃ v, HlcCall.run d s c = (v, .ok ⟨v⟩) ∧ s < v ∧ v < 2 ^ 64) := by
  cases c with
  | tick now =>
    have hp := update_progress s
      (fun local_p local_l =>
        .ok (max local_p now, if max local_p now = local_p then local_l + 1 else 0))
      hs ?_
    · have hrun : HlcCall.run d s (.tick now) =
          ((HlcAtomicTimestamp.update s (fun local_p local_l =>
              .ok (max local_p now,
                if max local_p now = local_p then local_l + 1 else 0))).1,
            (HlcAtomicTimestamp.update s (fun local_p local_l =>
              .ok (max local_p now,
                if max local_p now = local_p then local_l + 1 else 0))).2.map
              (fun c => ⟨c⟩)) := rfl
      rcases hp with ⟨h1, e, h2⟩ | ⟨h1, h2, h3⟩
      · left
        refine ⟨e, ?_⟩
        rw [hrun, h1, h2]
        rfl
      · right
        refine ⟨_, ?_, h2, h3⟩
        rw [hrun, h1]
        rfl
    · intro pt lc h
      simp only [Except.ok.injEq, Prod.mk.injEq] at h
      obtain ⟨h1, h2⟩ := h
      subst h1
      subst h2
      refine ⟨le_max_left _ _, fun hpa => ?_⟩
      rw [if_pos hpa]
      omega
  | recv now remote =>
    by_cases hdrift : d ≠ 0 ∧ (d : Int) <
        CustomEpochTimestamp.to_unix_timestamp ((remote.val >>> LC_BITS) &&& PT_MAX) - now
    · left
      refine ⟨.DriftTooLarge
        (CustomEpochTimestamp.to_unix_timestamp ((remote.val >>> LC_BITS) &&& PT_MAX) -
          now).toNat d, ?_⟩
      simp only [HlcCall.run, HlcGenerator.update]
      rw [if_pos hdrift]
    · have hp := update_progress s
        (fun local_p local_l =>
          .ok (max (max local_p
              (CustomEpochTimestamp.to_unix_timestamp
                ((remote.val >>> LC_BITS) &&& PT_MAX))) now,
            if max (max local_p
                (CustomEpochTimestamp.to_unix_timestamp
                  ((remote.val >>> LC_BITS) &&& PT_MAX))) now = local_p ∧
               max (max local_p
                (CustomEpochTimestamp.to_unix_timestamp
                  ((remote.val >>> LC_BITS) &&& PT_MAX))) now =
                CustomEpochTimestamp.to_unix_timestamp
                  ((remote.val >>> LC_BITS) &&& PT_MAX) then
              max local_l (remote.val &&& LC_MAX) + 1
            else if max (max local_p
                (CustomEpochTimestamp.to_unix_timestamp
                  ((remote.val >>> LC_BITS) &&& PT_MAX))) now = local_p then
              local_l + 1
            else if max (max local_p
                (CustomEpochTimestamp.to_unix_timestamp
                  ((remote.val >>> LC_BITS) &&& PT_MAX))) now =
                CustomEpochTimestamp.to_unix_timestamp
                  ((remote.val >>> LC_BITS) &&& PT_MAX) then
              (remote.val &&& LC_MAX) + 1
            else 0))
        hs ?_
      · have hrun : HlcCall.run d s (.recv now remote) =
            ((HlcAtomicTimestamp.update s (fun local_p local_l =>
                .ok (max (max local_p
                    (CustomEpochTimestamp.to_unix_timestamp
                      ((remote.val >>> LC_BITS) &&& PT_MAX))) now,
                  if max (max local_p
                      (CustomEpochTimestamp.to_unix_timestamp
                        ((remote.val >>> LC_BITS) &&& PT_MAX))) now = local_p ∧
                     max (max local_p
                      (CustomEpochTimestamp.to_unix_timestamp
                        ((remote.val >>> LC_BITS) &&& PT_MAX))) now =
                      CustomEpochTimestamp.to_unix_timestamp
                        ((remote.val >>> LC_BITS) &&& PT_MAX) then
                    max local_l (remote.val &&& LC_MAX) + 1
                  else if max (max local_p
                      (CustomEpochTimestamp.to_unix_timestamp
                        ((remote.val >>> LC_BITS) &&& PT_MAX))) now = local_p then
                    local_l + 1
                  else if max (max local_p
                      (CustomEpochTimestamp.to_unix_timestamp
                        ((remote.val >>> LC_BITS) &&& PT_MAX))) now =
                      CustomEpochTimestamp.to_unix_timestamp
                        ((remote.val >>> LC_BITS) &&& PT_MAX) then
                    (remote.val &&& LC_MAX) + 1
                  else 0))).1,
              (HlcAtomicTimestamp.update s (fun local_p local_l =>
                .ok (max (max local_p
                    (CustomEpochTimestamp.to_unix_timestamp
                      ((remote.val >>> LC_BITS) &&& PT_MAX))) now,
                  if max (max local_p
                      (CustomEpochTimestamp.to_unix_timestamp
                        ((remote.val >>> LC_BITS) &&& PT_MAX))) now = local_p ∧
                     max (max local_p
                      (CustomEpochTimestamp.to_unix_timestamp
                        ((remote.val >>> LC_BITS) &&& PT_MAX))) now =
                      CustomEpochTimestamp.to_unix_timestamp
                        ((remote.val >>> LC_BITS) &&& PT_MAX) then
                    max local_l (remote.val &&& LC_MAX) + 1
                  else if max (max local_p
                      (CustomEpochTimestamp.to_unix_timestamp
                        ((remote.val >>> LC_BITS) &&& PT_MAX))) now = local_p then
                    local_l + 1
                  else if max (max local_p
                      (CustomEpochTimestamp.to_unix_timestamp
                        ((remote.val >>> LC_BITS) &&& PT_MAX))) now =
                      CustomEpochTimestamp.to_unix_timestamp
                        ((remote.val >>> LC_BITS) &&& PT_MAX) then
                    (remote.val &&& LC_MAX) + 1
                  else 0))).2.map (fun c => ⟨c⟩)) := by
          simp only [HlcCall.run, HlcGenerator.update]
          rw [if_neg hdrift]
        rcases hp with ⟨h1, e, h2⟩ | ⟨h1, h2, h3⟩
        · left
          refine ⟨e, ?_⟩
          rw [hrun, h1, h2]
          rfl
        · right
          refine ⟨_, ?_, h2, h3⟩
          rw [hrun, h1]
          rfl
      · intro pt lc h
        simp only [Except.ok.injEq, Prod.mk.injEq] at h
        obtain ⟨h1, h2⟩ := h
        subst h1
        subst h2
        refine ⟨le_trans (le_max_left _ _) (le_max_left _ _), fun hpa => ?_⟩
        split_ifs <;> omega

/-- Successful outputs of a linearized call sequence are strictly above the
starting register, in-range, and pairwise strictly increasing in call
order. -/
theorem runCalls_sorted (d : Nat) (cs : List HlcCall) :
    ∀ s, s < 2 ^ 64 →
      (∀ x ∈ runCalls d s cs, s < x ∧ x < 2 ^ 64) ∧
      List.Pairwise (· < ·) (runCalls d s cs) := by
  induction cs with
  | nil =>
    intro s _
    refine ⟨?_, ?_⟩
    · intro x hx
      simp only [runCalls] at hx
      cases hx
    · simp only [runCalls]
      exact List.Pairwise.nil
  | cons c rest ih =>
    intro s hs
    rcases run_step d s c hs with ⟨e, he⟩ | ⟨v, hv, hlt, hv64⟩
    · have hr : runCalls d s (c :: rest) = runCalls d s rest := by
        rw [runCalls, he]
      rw [hr]
      exact ih s hs
    · have hr : runCalls d s (c :: rest) = v :: runCalls d v rest := by
        rw [runCalls, hv]
      rw [hr]
      obtain ⟨hall, hpw⟩ := ih v hv64
      constructor
      · intro x hx
        rcases List.mem_cons.mp hx with h | h
        · subst h
          exact ⟨hlt, hv64⟩
        · exact ⟨lt_trans hlt (hall x h).1, (hall x h).2⟩
      · exact List.Pairwise.cons (fun x hx => (hall x hx).1) hpw

/-- C6: for any linearized interleaving (the spec's state machine makes
every `next_timestamp`/`update` call one atomic transition of the single
register, so any thread interleaving is some sequence of calls), the raw
words of the successfully returned timestamps are pairwise strictly
increasing in call order — in particular duplicate-free, and strictly
increasing once globally sorted. Raw-word order is exactly the timestamps'
derived order. -/
theorem generator_outputs_strictly_increasing (d s : Nat) (cs : List HlcCall)
    (hs : s < 2 ^ 64) :
    List.Pairwise (· < ·) (runCalls d s cs) :=
  (runCalls_sorted d cs s hs).2

/-- C6 witness: a concrete interleaving of two ticks in the same millisecond
followed by a remote merge and another tick, from the zero register. -/
theorem generator_outputs_strictly_increasing_witness :
    List.Pairwise (· < ·) (runCalls 1000 0
      [.tick (EPOCH + 5), .tick (EPOCH + 5),
        .recv (EPOCH + 4) ⟨10 * 2 ^ 22 + 2⟩, .tick (EPOCH + 4)]) :=
  generator_outputs_strictly_increasing 1000 0 _ (by norm_num)

end HlcGen
